import Mathlib

/-!
Verification development for the drawille canvas library
(braille-character terminal graphics).

The definitions below are a shallow embedding of the two source files
of the repository: the cell/color model (pixel.rs) and the canvas,
rasterization and serialization logic (lib.rs).  Machine integers of
the source (u8, u16, u32, i32) are modelled as Nat or Int with
explicit reductions modulo the corresponding power of two at every
place where the source performs a lossy cast or where an operation
can wrap.  The hashed pixel map of the source is modelled as an
association list with unique keys; the source only ever iterates the
map to take maxima of the keys, so the iteration order is irrelevant.
-/

namespace Drawille

/-- RGB color, three u8 channels (source: struct Color(u8, u8, u8)).
The channels are Nat values; every color the library builds has
channels below 256, which theorems carry as side conditions where
they matter. -/
structure Color where
  r : Nat
  g : Nat
  b : Nat
deriving DecidableEq, Repr

/-- Source: Color::from_hex. Extracts the three bytes of a 24-bit
hex integer; the bitmasks with 0xFF are the byte casts. -/
def Color.from_hex (hex : Nat) : Color :=
  ⟨(hex >>> 16) &&& 0xFF, (hex >>> 8) &&& 0xFF, hex &&& 0xFF⟩

/-- Source: enum Content. A cell is empty, a bitmask of braille dots,
or an override character. -/
inductive Content where
  | Empty : Content
  | Line (d : Nat) : Content
  | Char (c : Char) : Content
deriving DecidableEq, Repr

/-- Source: struct Pixel, one character cell: content plus the
optional accumulated color list. -/
structure Pixel where
  content : Content
  colors : Option (List Color)
deriving DecidableEq, Repr

/-- Source: impl Default for Pixel. -/
def defaultPixel : Pixel := ⟨Content.Empty, none⟩

/-- Source: Pixel::color. Channel-wise mean of the accumulated
colors with truncating division. The channel accumulator is u32, so
every addition wraps modulo 2^32; the usize to u32 cast of the
length is the reduction modulo 2^32, and the final u8 casts are the
reductions modulo 256. (When the length is a positive multiple of
2^32 the source divides by zero and aborts; the model leaves the
Lean convention x / 0 = 0 there and no theorem evaluates it there.) -/
def Pixel.color (p : Pixel) : Option Color :=
  match p.colors with
  | none => none
  | some colors =>
    if colors.isEmpty then none
    else
      let len := colors.length % 4294967296
      let sum := colors.foldl
        (fun acc x => ((acc.1 + x.r) % 4294967296, (acc.2.1 + x.g) % 4294967296,
          (acc.2.2 + x.b) % 4294967296))
        ((0 : Nat), (0 : Nat), (0 : Nat))
      some ⟨sum.1 / len % 256, sum.2.1 / len % 256, sum.2.2 / len % 256⟩

/-- Source: Pixel::set_color. Replaces the accumulated list by zero
or one entries. -/
def Pixel.set_color (p : Pixel) (color : Option Color) : Pixel :=
  { p with colors := color.map (fun c => [c]) }

/-- Source: Pixel::add_color. Appends one color if present. -/
def Pixel.add_color (p : Pixel) (color : Option Color) : Pixel :=
  match color with
  | none => p
  | some c => { p with colors := some (p.colors.getD [] ++ [c]) }

/-- Source: Pixel::set_char. -/
def Pixel.set_char (p : Pixel) (c : Char) : Pixel :=
  { p with content := Content.Char c }

/-- Source: Pixel::unset_char. -/
def Pixel.unset_char (p : Pixel) : Pixel :=
  match p.content with
  | Content.Char _ => { p with content := Content.Empty, colors := none }
  | _ => p

/-- Source: Pixel::set_line. Dots accumulate by bitwise or; a char or
empty cell contributes an old mask of 0. -/
def Pixel.set_line (p : Pixel) (new : Nat) : Pixel :=
  let old := match p.content with
    | Content.Line d => d
    | _ => 0
  { p with content := Content.Line (old ||| new) }

/-- Source: Pixel::unset_line. The u8 complement of the mask is
255 xor mask. -/
def Pixel.unset_line (p : Pixel) (new : Nat) : Pixel :=
  match p.content with
  | Content.Line d => { p with content := Content.Line (d &&& (255 ^^^ new)) }
  | _ => p

/-- Source: Pixel::toggle_line. -/
def Pixel.toggle_line (p : Pixel) (new : Nat) : Pixel :=
  match p.content with
  | Content.Line d => { p with content := Content.Line (d ^^^ new) }
  | _ => p

/-- Source: Pixel::get_line. -/
def Pixel.get_line (p : Pixel) (dot : Nat) : Bool :=
  match p.content with
  | Content.Line d => decide (d &&& dot > 0)
  | _ => false

/-- Model of char::from_u32: some character iff the code point is a
valid unicode scalar value. -/
def charFromU32 (n : Nat) : Option Char :=
  if h : n.isValidChar then some (Char.ofNatAux n h) else none

/-- Decimal digit character for d mod 10. -/
def digitChar (d : Nat) : Char := Char.ofNat (48 + d % 10)

/-- Fuel-indexed decimal printer; fuel n + 1 always suffices for n. -/
def natDecimalAux (fuel n : Nat) : List Char :=
  match fuel with
  | 0 => []
  | fuel + 1 =>
    if n < 10 then [digitChar n]
    else natDecimalAux fuel (n / 10) ++ [digitChar (n % 10)]

/-- Decimal representation of a Nat, as emitted for the color
channels by the format machinery of the source. -/
def natDecimal (n : Nat) : List Char := natDecimalAux (n + 1) n

/-- The ANSI true-color escape-open sequence emitted by
colorize_char for a color: ESC [38;2;r;g;bm with decimal channel
values. -/
def escOpen (col : Color) : String :=
  "\x1B[38;2;" ++ String.mk (natDecimal col.r) ++ ";" ++
    String.mk (natDecimal col.g) ++ ";" ++ String.mk (natDecimal col.b) ++ "m"

/-- Source: colorize_char. Builds the ANSI true-color escape prefix,
the optional character, and the optional reset suffix. -/
def colorize_char (color : Option Color) (c : Option Char) (append_end : Bool) : String :=
  (match color with
   | some col => escOpen col
   | none => "") ++
  (match c with
   | some ch => String.singleton ch
   | none => "") ++
  (if append_end then "\x1B[0m" else "")

/-- Source: Pixel::get_char. Renders one cell given the effective
color of the previous cell; returns the fragment and this cell's
effective color. The braille glyph is 0x2800 plus the dot mask; the
unwrap of char::from_u32 is modelled by getD (claim C10 shows the
default branch is unreachable for 8-bit masks). First the display
character of a cell content: -/
def Pixel.renderedChar (p : Pixel) : Char :=
  match p.content with
  | Content.Empty => ' '
  | Content.Char ch => ch
  | Content.Line d => (charFromU32 (0x2800 + d)).getD ' '

/-- Source: Pixel::get_char, the cell renderer itself. -/
def Pixel.get_char (p : Pixel) (prev_color : Option Color) : String × Option Color :=
  let c : Char := p.renderedChar
  let original_color := p.color
  let cne : Option Color × Bool :=
    if prev_color = original_color then (none, false)
    else (original_color, prev_color.isSome)
  let s := (if cne.2 then colorize_char none none true else "") ++
    colorize_char cne.1 (some c) false
  (s, original_color)

/-- Association-list lookup, modelling HashMap::get. -/
def findPixel (m : List ((Nat × Nat) × Pixel)) (k : Nat × Nat) : Option Pixel :=
  match m with
  | [] => none
  | e :: rest => if e.1 = k then some e.2 else findPixel rest k

/-- Modelling entry(k).or_default() followed by in-place mutation f:
inserts f defaultPixel when the key is absent, otherwise replaces the
stored pixel p by f p. -/
def modifyEntry (m : List ((Nat × Nat) × Pixel)) (k : Nat × Nat) (f : Pixel → Pixel) :
    List ((Nat × Nat) × Pixel) :=
  match m with
  | [] => [(k, f defaultPixel)]
  | e :: rest => if e.1 = k then (e.1, f e.2) :: rest else e :: modifyEntry rest k f

/-- Modelling entry(k).and_modify(f): mutates the stored pixel when
the key is present, never inserts. -/
def andModify (m : List ((Nat × Nat) × Pixel)) (k : Nat × Nat) (f : Pixel → Pixel) :
    List ((Nat × Nat) × Pixel) :=
  m.map (fun e => if e.1 = k then (e.1, f e.2) else e)

/-- Source: static PIXEL_MAP, indexed as PIXEL_MAP[y % 4][x % 2]. -/
def PIXEL_MAP : List (List Nat) := [[0x01, 0x08], [0x02, 0x10], [0x04, 0x20], [0x40, 0x80]]

/-- The dot mask for sub-pixel position (row = y % 4, col = x % 2). -/
def pixelMap (row col : Nat) : Nat := (PIXEL_MAP.getD row []).getD col 0

/-- The cell key computed by every canvas operation:
((x / 2) as u16, (y / 4) as u16); the u16 casts are the reductions
modulo 65536. -/
def cellKey (x y : Nat) : Nat × Nat := ((x / 2) % 65536, (y / 4) % 65536)

/-- Source: struct Canvas. width and height are the nominal cell-grid
bounds (u16), pixels the sparse cell map, color the default drawing
color. -/
structure Canvas where
  pixels : List ((Nat × Nat) × Pixel)
  width : Nat
  height : Nat
  color : Option Color
deriving DecidableEq, Repr

namespace Canvas

/-- Source: Canvas::new. The u16 casts of width / 2 and height / 4
are the reductions modulo 65536. -/
def new (width height : Nat) : Canvas :=
  ⟨[], width / 2 % 65536, height / 4 % 65536, none⟩

/-- Source: Canvas::clear. -/
def clear (c : Canvas) : Canvas := { c with pixels := [] }

/-- Source: Canvas::set_color. -/
def set_color (c : Canvas) (color : Nat) : Canvas :=
  { c with color := some (Color.from_hex color) }

/-- Source: Canvas::reset_color. -/
def reset_color (c : Canvas) : Canvas := { c with color := none }

/-- Source: Canvas::set. Creates the owning cell if needed, ors in
the dot bit, accumulates the default color. -/
def set (c : Canvas) (x y : Nat) : Canvas :=
  let f := fun (p : Pixel) => (p.set_line (pixelMap (y % 4) (x % 2))).add_color c.color
  { c with pixels := modifyEntry c.pixels (cellKey x y) f }

/-- Source: Canvas::set_char. Creates the owning cell if needed,
overwrites the content with the character, assigns the default
color. -/
def set_char (c : Canvas) (x y : Nat) (ch : Char) : Canvas :=
  let f := fun (p : Pixel) => (p.set_char ch).set_color c.color
  { c with pixels := modifyEntry c.pixels (cellKey x y) f }

/-- Source: Canvas::unset_char. and_modify only: never inserts. -/
def unset_char (c : Canvas) (x y : Nat) : Canvas :=
  { c with pixels := andModify c.pixels (cellKey x y) (fun p => p.unset_char) }

/-- Source: Canvas::unset. and_modify only: never inserts. -/
def unset (c : Canvas) (x y : Nat) : Canvas :=
  let f := fun (p : Pixel) => p.unset_line (pixelMap (y % 4) (x % 2))
  { c with pixels := andModify c.pixels (cellKey x y) f }

/-- Source: Canvas::toggle. and_modify only: never inserts. -/
def toggle (c : Canvas) (x y : Nat) : Canvas :=
  let f := fun (p : Pixel) => p.toggle_line (pixelMap (y % 4) (x % 2))
  { c with pixels := andModify c.pixels (cellKey x y) f }

/-- Source: Canvas::get. -/
def get (c : Canvas) (x y : Nat) : Bool :=
  match findPixel c.pixels (cellKey x y) with
  | none => false
  | some p => p.get_line (pixelMap (y % 4) (x % 2))

/-- The successive placements performed by Canvas::text: the offset
is computed as (i as u32) * 2 in u32, so both the index cast and the
doubling wrap modulo 2^32, as does the u32 position x + w passed to
set_char; the loop returns as soon as the wrapped offset strictly
exceeds max_width. -/
def textAux (x y max_width : Nat) : Nat → List Char → List (Nat × Nat × Char)
  | _, [] => []
  | i, ch :: rest =>
    if i % 4294967296 * 2 % 4294967296 > max_width then []
    else ((x + i % 4294967296 * 2 % 4294967296) % 4294967296, y, ch) ::
      textAux x y max_width (i + 1) rest

/-- The list of set_char calls issued by Canvas::text. -/
def textPlacements (x y max_width : Nat) (s : List Char) : List (Nat × Nat × Char) :=
  textAux x y max_width 0 s

/-- Source: Canvas::text, as the fold of set_char over the
placement list. -/
def text (c : Canvas) (x y max_width : Nat) (s : List Char) : Canvas :=
  (textPlacements x y max_width s).foldl (fun cv pl => cv.set_char pl.1 pl.2.1 pl.2.2) c

/-- Source: Canvas::rows. The rendered extent is the maximum of the
nominal bounds and every touched cell coordinate; each row threads
the previous effective color through the cells and appends a
trailing reset when the row ends colored. -/
def rows (c : Canvas) : List String :=
  let maxrow := c.pixels.foldl (fun m e => if e.1.1 > m then e.1.1 else m) c.width
  let maxcol := c.pixels.foldl (fun m e => if e.1.2 > m then e.1.2 else m) c.height
  (List.range (maxcol + 1)).map (fun y =>
    let st := (List.range (maxrow + 1)).foldl
      (fun (acc : String × Option Color) x =>
        let cell := (findPixel c.pixels (x, y)).getD defaultPixel
        let sc := cell.get_char acc.2
        (acc.1 ++ sc.1, sc.2))
      ("", none)
    if st.2.isSome then st.1 ++ colorize_char none none true else st.1)

/-- Source: Canvas::frame. -/
def frame (c : Canvas) : String := String.intercalate "\n" c.rows

end Canvas

/-- u32 value reinterpreted as i32 (the `as i32` cast). -/
def u32AsI32 (n : Nat) : Int :=
  if n < 2147483648 then (n : Int) else (n : Int) - 4294967296

/-- Wrapping i32 arithmetic result (release-mode two's complement). -/
def wrapI32 (v : Int) : Int := (v + 2147483648) % 4294967296 - 2147483648

/-- i32 value reinterpreted as u32 (the `as u32` cast). -/
def i32AsU32 (v : Int) : Nat := (v % 4294967296).toNat

/-- The point passed to set at step i of Canvas::line. All u32
multiplications wrap modulo 2^32 and the i32 additions wrap modulo
2^32 around the signed range, exactly as the source casts do. -/
def lineStep (x1 y1 x2 y2 i : Nat) : Nat × Nat :=
  let xdiff := max x1 x2 - min x1 x2
  let ydiff := max y1 y2 - min y1 y2
  let xdir : Int := if x1 ≤ x2 then 1 else -1
  let ydir : Int := if y1 ≤ y2 then 1 else -1
  let r := max xdiff ydiff
  let x0 : Int := u32AsI32 x1
  let y0 : Int := u32AsI32 y1
  let yv : Int :=
    if ydiff ≠ 0 then wrapI32 (y0 + wrapI32 (u32AsI32 (i * ydiff % 4294967296 / r) * ydir))
    else y0
  let xv : Int :=
    if xdiff ≠ 0 then wrapI32 (x0 + wrapI32 (u32AsI32 (i * xdiff % 4294967296 / r) * xdir))
    else x0
  (i32AsU32 xv, i32AsU32 yv)

/-- The full list of points Canvas::line passes to set: one for each
i from 0 to max(xdiff, ydiff) inclusive. -/
def linePoints (x1 y1 x2 y2 : Nat) : List (Nat × Nat) :=
  let xdiff := max x1 x2 - min x1 x2
  let ydiff := max y1 y2 - min y1 y2
  let r := max xdiff ydiff
  (List.range (r + 1)).map (lineStep x1 y1 x2 y2)

/-- Source: Canvas::line, as the fold of set over the step points. -/
def Canvas.line (c : Canvas) (x1 y1 x2 y2 : Nat) : Canvas :=
  (linePoints x1 y1 x2 y2).foldl (fun cv p => cv.set p.1 p.2) c

/-- Modelled from the claim text of C6: the effective color is the
per-channel arithmetic mean of the accumulated list with truncating
integer division, and none when the list is empty or absent. -/
def specMeanColor (colors : Option (List Color)) : Option Color :=
  match colors with
  | none => none
  | some l =>
    if l = [] then none
    else
      some ⟨(l.map Color.r).sum / l.length, (l.map Color.g).sum / l.length,
        (l.map Color.b).sum / l.length⟩

/-- The concrete cell of claim C6: dots with the accumulated colors
0xFF0000 and 0x0000FF. -/
def redBluePixel : Pixel :=
  ⟨Content.Line 3, some [Color.from_hex 0xFF0000, Color.from_hex 0x0000FF]⟩

/-- A dot cell with the single accumulated color 0xFF0000, used as a
concrete rendering input. -/
def redPixel : Pixel := ⟨Content.Line 1, some [Color.from_hex 0xFF0000]⟩

/-- A dot cell with 16843010 accumulated copies of 0xFF0000: the red
channel sum 255 * 16843010 = 2^32 + 254 wraps the u32 accumulator of
the source, so its effective color is not the arithmetic mean. -/
def wrapPixel : Pixel :=
  ⟨Content.Line 1, some (List.replicate 16843010 (Color.from_hex 0xFF0000))⟩

/-- The ANSI reset-to-default escape sequence. -/
def resetStr : String := "\x1B[0m"

/-- The escape-open fragment a cell contributes for an optional
effective color. -/
def optEsc : Option Color → String
  | some col => escOpen col
  | none => ""

/-- The four characters that begin every ANSI true-color
escape-open sequence. -/
def openPat : List Char := ['\x1B', '[', '3', '8']

/-- Number of positions at which the escape-open pattern occurs in a
character list. -/
def countOpen : List Char → Nat
  | [] => 0
  | c :: rest => (if List.take 4 (c :: rest) = openPat then 1 else 0) + countOpen rest

/-- Modelled from the claim text of C4: the interpolation formula
with exact integer arithmetic; dx, dy are the absolute coordinate
differences, steps their maximum, each quotient is taken as 0 when
the corresponding delta is 0, and the quotient is multiplied by the
sign of the coordinate difference. -/
def specLineStep (x1 y1 x2 y2 i : Nat) : Int × Int :=
  let dx : Nat := ((x2 : Int) - (x1 : Int)).natAbs
  let dy : Nat := ((y2 : Int) - (y1 : Int)).natAbs
  let steps := max dx dy
  let qx : Nat := if dx = 0 then 0 else i * dx / steps
  let qy : Nat := if dy = 0 then 0 else i * dy / steps
  ((x1 : Int) + (qx : Int) * Int.sign ((x2 : Int) - (x1 : Int)),
    (y1 : Int) + (qy : Int) * Int.sign ((y2 : Int) - (y1 : Int)))

/-- Modelled from the claim text of C4: the points the claimed
formula produces, for i from 0 to steps inclusive. -/
def specLinePoints (x1 y1 x2 y2 : Nat) : List (Int × Int) :=
  let dx : Nat := ((x2 : Int) - (x1 : Int)).natAbs
  let dy : Nat := ((y2 : Int) - (y1 : Int)).natAbs
  let steps := max dx dy
  (List.range (steps + 1)).map (specLineStep x1 y1 x2 y2)

/-- The public Canvas operations, for properties quantified over
arbitrary call sequences. -/
inductive Op where
  | set (x y : Nat) : Op
  | unset (x y : Nat) : Op
  | toggle (x y : Nat) : Op
  | set_char (x y : Nat) (c : Char) : Op
  | unset_char (x y : Nat) : Op
  | text (x y max_width : Nat) (s : List Char) : Op
  | line (x1 y1 x2 y2 : Nat) : Op
  | clear : Op
  | set_color (hex : Nat) : Op
  | reset_color : Op
deriving DecidableEq, Repr

/-- Interpretation of one public operation on a canvas. -/
def applyOp (c : Canvas) : Op → Canvas
  | Op.set x y => c.set x y
  | Op.unset x y => c.unset x y
  | Op.toggle x y => c.toggle x y
  | Op.set_char x y ch => c.set_char x y ch
  | Op.unset_char x y => c.unset_char x y
  | Op.text x y w s => c.text x y w s
  | Op.line x1 y1 x2 y2 => c.line x1 y1 x2 y2
  | Op.clear => c.clear
  | Op.set_color hex => c.set_color hex
  | Op.reset_color => c.reset_color

/-- Interpretation of a sequence of public operations. -/
def applyOps (c : Canvas) (ops : List Op) : Canvas := ops.foldl applyOp c

/-- The fine-grained points an operation passes to set, directly or
through the rasterizer. -/
def opSetCalls : Op → List (Nat × Nat)
  | Op.set x y => [(x, y)]
  | Op.line x1 y1 x2 y2 => linePoints x1 y1 x2 y2
  | _ => []

/-- Whether the operation is a toggle. -/
def isToggle : Op → Bool
  | Op.toggle _ _ => true
  | _ => false

/-- Two fine points alias the same cell and the same dot bit. -/
def sameDot (a b : Nat × Nat) : Prop :=
  cellKey a.1 a.2 = cellKey b.1 b.2 ∧ a.1 % 2 = b.1 % 2 ∧ a.2 % 4 = b.2 % 4

instance (a b : Nat × Nat) : Decidable (sameDot a b) := by
  unfold sameDot
  infer_instance

/-- The invariant of claim C8: every cell whose content is a Char
holds at most one accumulated color. -/
def charColorInv (c : Canvas) : Prop :=
  ∀ e ∈ c.pixels, ∀ ch, e.2.content = Content.Char ch → (e.2.colors.getD []).length ≤ 1

/-! ## Bitmask lemmas -/

theorem lor_land_self (a b : Nat) : (a ||| b) &&& b = b := by
  apply Nat.eq_of_testBit_eq
  intro i
  simp only [Nat.testBit_land, Nat.testBit_lor]
  cases a.testBit i <;> cases b.testBit i <;> simp

theorem land_lor_left_zero {a b c : Nat} (h1 : a &&& c = 0) (h2 : b &&& c = 0) :
    (a ||| b) &&& c = 0 := by
  apply Nat.eq_of_testBit_eq
  intro i
  have t1 := congrArg (fun n => n.testBit i) h1
  have t2 := congrArg (fun n => n.testBit i) h2
  simp only [Nat.testBit_land, Nat.testBit_lor, Nat.zero_testBit] at t1 t2 ⊢
  cases ha : a.testBit i <;> cases hb : b.testBit i <;> cases hc : c.testBit i <;>
    simp_all

theorem land_mono_zero {a c : Nat} (h : a &&& c = 0) (m : Nat) :
    (a &&& m) &&& c = 0 := by
  apply Nat.eq_of_testBit_eq
  intro i
  have t := congrArg (fun n => n.testBit i) h
  simp only [Nat.testBit_land, Nat.zero_testBit] at t ⊢
  cases ha : a.testBit i <;> cases hc : c.testBit i <;> simp_all

theorem pixelMap_pos : ∀ (row : Fin 4) (col : Fin 2), 0 < pixelMap row col := by decide

theorem pixelMap_disjoint : ∀ (r1 : Fin 4) (c1 : Fin 2) (r2 : Fin 4) (c2 : Fin 2),
    (r1, c1) ≠ (r2, c2) → pixelMap r1 c1 &&& pixelMap r2 c2 = 0 := by decide

/-! ## Association-list map lemmas -/

theorem findPixel_modifyEntry_self (m : List ((Nat × Nat) × Pixel)) (k : Nat × Nat)
    (f : Pixel → Pixel) :
    findPixel (modifyEntry m k f) k = some (f ((findPixel m k).getD defaultPixel)) := by
  induction m with
  | nil => simp [findPixel, modifyEntry]
  | cons e rest ih =>
    by_cases h : e.1 = k
    · simp [findPixel, modifyEntry, h]
    · simp [findPixel, modifyEntry, h, ih]

theorem findPixel_modifyEntry_ne (m : List ((Nat × Nat) × Pixel)) (k k2 : Nat × Nat)
    (f : Pixel → Pixel) (hne : k2 ≠ k) :
    findPixel (modifyEntry m k f) k2 = findPixel m k2 := by
  have hks : k ≠ k2 := fun hh => hne hh.symm
  induction m with
  | nil => simp [findPixel, modifyEntry, hks]
  | cons e rest ih =>
    by_cases h : e.1 = k
    · simp [findPixel, modifyEntry, h, hks]
    · simp [findPixel, modifyEntry, h, ih]

theorem findPixel_andModify_self (m : List ((Nat × Nat) × Pixel)) (k : Nat × Nat)
    (f : Pixel → Pixel) :
    findPixel (andModify m k f) k = (findPixel m k).map f := by
  induction m with
  | nil => simp [findPixel, andModify]
  | cons e rest ih =>
    by_cases h : e.1 = k
    · simp [findPixel, andModify, h]
    · simpa [findPixel, andModify, h] using ih

theorem findPixel_andModify_ne (m : List ((Nat × Nat) × Pixel)) (k k2 : Nat × Nat)
    (f : Pixel → Pixel) (hne : k2 ≠ k) :
    findPixel (andModify m k f) k2 = findPixel m k2 := by
  have hks : k ≠ k2 := fun hh => hne hh.symm
  induction m with
  | nil => simp [findPixel, andModify]
  | cons e rest ih =>
    by_cases h : e.1 = k
    · simp [findPixel, andModify, h, hks]
      simpa [andModify] using ih
    · simp only [andModify, List.map_cons, if_neg h, findPixel]
      by_cases h2 : e.1 = k2
      · rw [if_pos h2, if_pos h2]
      · rw [if_neg h2, if_neg h2]
        simpa [andModify] using ih

/-! ## Pixel operation lemmas -/

theorem Pixel.get_line_add_color (p : Pixel) (col : Option Color) (b : Nat) :
    (p.add_color col).get_line b = p.get_line b := by
  cases col <;> rfl

theorem Pixel.get_line_set_line_self (p : Pixel) (b : Nat) (hb : 0 < b) :
    (p.set_line b).get_line b = true := by
  rcases p with ⟨content, colors⟩
  cases content <;>
    simp [Pixel.set_line, Pixel.get_line, lor_land_self] <;> exact hb

/-- Shared core of claims about set followed by get. -/
theorem set_get_same (c : Canvas) (x y : Nat) : (c.set x y).get x y = true := by
  have hb : 0 < pixelMap (y % 4) (x % 2) := by
    have := pixelMap_pos ⟨y % 4, by omega⟩ ⟨x % 2, by omega⟩
    simpa using this
  unfold Canvas.set Canvas.get
  simp only [findPixel_modifyEntry_self]
  rw [Pixel.get_line_add_color]
  exact Pixel.get_line_set_line_self _ _ hb

/-! ## Claim theorems (first group) -/

/-- C1: starting from Canvas::new(10,10), calling set(5,4) then
line(2,2,8,8) and then frame() produces exactly the 3-row string
shown in the crate documentation: rows 0..=2, columns 0..=5. -/
theorem C1_worked_example :
    (((Canvas.new 10 10).set 5 4).line 2 2 8 8).frame = " ⢄    \n  ⠙⢄  \n    ⠁ " := by
  decide

/-- C2: for every canvas state and every fine-grained point (x, y),
calling set(x, y) and then, with no intervening mutation, get(x, y)
returns true. -/
theorem C2_set_then_get (c : Canvas) (x y : Nat) : (c.set x y).get x y = true :=
  set_get_same c x y

/-- C9: cell coordinates are truncated to 16 bits, so the points
(x, y), (x + 131072, y) and (x, y + 262144) address the same cell
key and the same dot bit; get agrees on them, and set at the
aliased point makes get at the original point true. -/
theorem C9_coordinate_alias (c : Canvas) (x y : Nat) :
    cellKey (x + 131072) y = cellKey x y ∧
    cellKey x (y + 262144) = cellKey x y ∧
    pixelMap (y % 4) ((x + 131072) % 2) = pixelMap (y % 4) (x % 2) ∧
    pixelMap ((y + 262144) % 4) (x % 2) = pixelMap (y % 4) (x % 2) ∧
    c.get (x + 131072) y = c.get x y ∧
    c.get x (y + 262144) = c.get x y ∧
    (c.set (x + 131072) y).get x y = true := by
  have hx2 : (x + 131072) % 2 = x % 2 := by omega
  have hy4 : (y + 262144) % 4 = y % 4 := by omega
  have hkx : cellKey (x + 131072) y = cellKey x y := by
    unfold cellKey
    have : (x + 131072) / 2 % 65536 = x / 2 % 65536 := by omega
    rw [this]
  have hky : cellKey x (y + 262144) = cellKey x y := by
    unfold cellKey
    have : (y + 262144) / 4 % 65536 = y / 4 % 65536 := by omega
    rw [this]
  have hsetx : c.set (x + 131072) y = c.set x y := by
    unfold Canvas.set
    rw [hkx, hx2]
  refine ⟨hkx, hky, by rw [hx2], by rw [hy4], ?_, ?_, ?_⟩
  · unfold Canvas.get
    rw [hkx, hx2]
  · unfold Canvas.get
    rw [hky, hy4]
  · rw [hsetx]
    exact set_get_same c x y

/-- C10: for every 8-bit dot bitmask d, the codepoint 0x2800 + d is
a valid Unicode scalar value inside the braille block
U+2800 to U+28FF, so the model of char::from_u32 returns some
character and the cell renderer is total. -/
theorem C10_braille_codepoint_valid (d : Nat) (h : d < 256) :
    (0x2800 ≤ 0x2800 + d ∧ 0x2800 + d ≤ 0x28FF) ∧ Nat.isValidChar (0x2800 + d) ∧
    (charFromU32 (0x2800 + d)).isSome = true := by
  have hv : Nat.isValidChar (0x2800 + d) := Or.inl (by omega)
  refine ⟨⟨by omega, by omega⟩, hv, ?_⟩
  unfold charFromU32
  rw [dif_pos hv]
  rfl

/-- Witness for C10 at the maximal mask d = 255. -/
theorem C10_witness :
    (0x2800 ≤ 0x2800 + 255 ∧ 0x2800 + 255 ≤ 0x28FF) ∧ Nat.isValidChar (0x2800 + 255) ∧
    (charFromU32 (0x2800 + 255)).isSome = true :=
  C10_braille_codepoint_valid 255 (by decide)

/-! ## Text placement (claim C5) -/

theorem textAux_mem (x y m : Nat) (hxm : x + m < 4294967296) (l : List Char) :
    ∀ (i j : Nat) (hj : j < l.length), i + l.length ≤ 2147483648 →
      (((x + 2 * (i + j), y, l.get ⟨j, hj⟩) ∈ Canvas.textAux x y m i l) ↔ 2 * (i + j) ≤ m) := by
  induction l with
  | nil => intro i j hj; simp at hj
  | cons c rest ih =>
    intro i j hj hbound
    have hi31 : i < 2147483648 := by
      simp only [List.length_cons] at hbound
      omega
    have hw : i % 4294967296 * 2 % 4294967296 = 2 * i := by
      rw [Nat.mod_eq_of_lt (by omega : i < 4294967296),
        Nat.mod_eq_of_lt (by omega : i * 2 < 4294967296)]
      omega
    by_cases hcase : 2 * i > m
    · rw [Canvas.textAux, hw, if_pos hcase]
      simp only [List.not_mem_nil, false_iff]
      omega
    · rw [Canvas.textAux, hw, if_neg hcase]
      have hpos : (x + 2 * i) % 4294967296 = x + 2 * i :=
        Nat.mod_eq_of_lt (by omega)
      rw [hpos]
      cases j with
      | zero =>
        simp only [Nat.add_zero, List.get, List.mem_cons]
        constructor
        · intro _; omega
        · intro _; left; trivial
      | succ j =>
        have hj2 : j < rest.length := by simpa using hj
        have hbound2 : (i + 1) + rest.length ≤ 2147483648 := by
          simp only [List.length_cons] at hbound
          omega
        have harith : i + (j + 1) = (i + 1) + j := by omega
        rw [harith]
        have hget : (c :: rest).get ⟨j + 1, hj⟩ = rest.get ⟨j, hj2⟩ := rfl
        rw [hget]
        have hne : (x + 2 * ((i + 1) + j), y, rest.get ⟨j, hj2⟩) ≠ (x + 2 * i, y, c) := by
          intro hc
          have := congrArg (fun t => t.1) hc
          simp only at this
          omega
        rw [List.mem_cons, or_iff_right hne]
        exact ih (i + 1) j hj2 hbound2

/-- C5 counterexample: the position x + w is u32 addition, so with
x = 2^32 - 1, maxWidth = 2 and s = "AB", character index 1 satisfies
2 * 1 <= maxWidth but is placed at the wrapped position 1, not at
x + 2; the claimed unconditional iff fails. -/
theorem C5_counterexample :
    ¬ (((4294967295 + 2 * 1, 0, (['A', 'B'] : List Char).get ⟨1, by decide⟩) ∈
        Canvas.textPlacements 4294967295 0 2 ['A', 'B']) ↔ 2 * 1 ≤ 2) := by
  decide

/-- C5 (amended): for strings of length at most 2^31 with
x + maxWidth < 2^32 (so neither the u32 offset i * 2 nor the u32
position x + offset wraps), text places character index i at fine
coordinates (x + 2 i, y) iff its offset 2 i does not strictly
exceed maxWidth; the boundary offset 2 i = maxWidth is still placed
and iteration stops at the first strictly larger offset. -/
theorem C5_text_boundary (x y m : Nat) (s : List Char) (i : Nat) (h : i < s.length)
    (hxm : x + m < 4294967296) (hlen : s.length ≤ 2147483648) :
    ((x + 2 * i, y, s.get ⟨i, h⟩) ∈ Canvas.textPlacements x y m s) ↔ 2 * i ≤ m := by
  have := textAux_mem x y m hxm s 0 i h (by omega)
  simpa [Canvas.textPlacements] using this

/-- Witness for C5: with maxWidth 4 the character at offset 4 is
still placed. -/
theorem C5_witness :
    ((0 + 2 * 2, 0, (['A', 'B', 'C', 'D'] : List Char).get ⟨2, by decide⟩) ∈
        Canvas.textPlacements 0 0 4 ['A', 'B', 'C', 'D']) ↔ 2 * 2 ≤ 4 :=
  C5_text_boundary 0 0 4 ['A', 'B', 'C', 'D'] 2 (by decide) (by decide) (by decide)

/-! ## Color averaging (claim C6) -/

theorem color_fold_sum_mod (l : List Color) : ∀ a b c : Nat,
    a < 4294967296 → b < 4294967296 → c < 4294967296 →
    l.foldl (fun acc x => ((acc.1 + x.r) % 4294967296, (acc.2.1 + x.g) % 4294967296,
        (acc.2.2 + x.b) % 4294967296)) (a, b, c) =
      ((a + (l.map Color.r).sum) % 4294967296, (b + (l.map Color.g).sum) % 4294967296,
        (c + (l.map Color.b).sum) % 4294967296) := by
  induction l with
  | nil =>
    intro a b c ha hb hc
    simp [Nat.mod_eq_of_lt ha, Nat.mod_eq_of_lt hb, Nat.mod_eq_of_lt hc]
  | cons hd tl ih =>
    intro a b c ha hb hc
    simp only [List.foldl_cons, List.map_cons, List.sum_cons]
    rw [ih ((a + hd.r) % 4294967296) ((b + hd.g) % 4294967296) ((c + hd.b) % 4294967296)
      (Nat.mod_lt _ (by norm_num)) (Nat.mod_lt _ (by norm_num)) (Nat.mod_lt _ (by norm_num))]
    rw [Nat.mod_add_mod, Nat.mod_add_mod, Nat.mod_add_mod]
    simp [Nat.add_assoc]

theorem mapped_sum_le (l : List Color) (f : Color → Nat) (h : ∀ c ∈ l, f c < 256) :
    (l.map f).sum ≤ 255 * l.length := by
  induction l with
  | nil => simp
  | cons hd tl ih =>
    simp only [List.map_cons, List.sum_cons, List.length_cons]
    have h1 := h hd (by simp)
    have h2 := ih (fun c hc => h c (by simp [hc]))
    omega

/-- The effective color of a cell with a nonempty accumulated list,
in closed form. -/
theorem pixel_color_some (ct : Content) (l : List Color) (hl : l ≠ []) :
    Pixel.color ⟨ct, some l⟩ =
      some ⟨(l.map Color.r).sum % 4294967296 / (l.length % 4294967296) % 256,
        (l.map Color.g).sum % 4294967296 / (l.length % 4294967296) % 256,
        (l.map Color.b).sum % 4294967296 / (l.length % 4294967296) % 256⟩ := by
  have hne : l.isEmpty = false := by
    obtain ⟨hd, tl, rfl⟩ := List.exists_cons_of_ne_nil hl
    rfl
  simp only [Pixel.color, hne, Bool.false_eq_true, if_false]
  rw [color_fold_sum_mod l 0 0 0 (by norm_num) (by norm_num) (by norm_num)]
  simp only [Nat.zero_add]

/-- C6 counterexample: a cell with 16843010 accumulated copies of
0xFF0000 makes the u32 red-channel sum wrap to 254, so the source
computes effective color (0, 0, 0) where the arithmetic mean is
(255, 0, 0). -/
theorem C6_counterexample :
    Pixel.color wrapPixel ≠ specMeanColor wrapPixel.colors ∧
    Pixel.color wrapPixel = some ⟨0, 0, 0⟩ ∧
    specMeanColor wrapPixel.colors = some ⟨255, 0, 0⟩ := by
  have hred : Color.from_hex 0xFF0000 = ⟨255, 0, 0⟩ := by decide
  have hlen : (List.replicate 16843010 (Color.from_hex 0xFF0000)).length = 16843010 :=
    List.length_replicate 16843010 _
  have hnil : List.replicate 16843010 (Color.from_hex 0xFF0000) ≠ [] := by
    intro hc
    rw [hc] at hlen
    exact absurd hlen (by simp)
  have hmapr : (List.replicate 16843010 (Color.from_hex 0xFF0000)).map Color.r =
      List.replicate 16843010 255 := by
    rw [List.map_replicate, hred]
  have hmapg : (List.replicate 16843010 (Color.from_hex 0xFF0000)).map Color.g =
      List.replicate 16843010 0 := by
    rw [List.map_replicate, hred]
  have hmapb : (List.replicate 16843010 (Color.from_hex 0xFF0000)).map Color.b =
      List.replicate 16843010 0 := by
    rw [List.map_replicate, hred]
  have hsumr : (List.replicate 16843010 (255 : Nat)).sum = 4294967550 := by
    rw [List.sum_replicate, smul_eq_mul]
  have hsum0 : (List.replicate 16843010 (0 : Nat)).sum = 0 := by
    rw [List.sum_replicate, smul_eq_mul]
  have hp : Pixel.color wrapPixel = some ⟨0, 0, 0⟩ := by
    rw [show wrapPixel =
        ⟨Content.Line 1, some (List.replicate 16843010 (Color.from_hex 0xFF0000))⟩ from rfl,
      pixel_color_some _ _ hnil, hmapr, hmapg, hmapb, hsumr, hsum0, hlen]
  have hs : specMeanColor wrapPixel.colors = some ⟨255, 0, 0⟩ := by
    rw [show wrapPixel.colors =
        some (List.replicate 16843010 (Color.from_hex 0xFF0000)) from rfl]
    rw [specMeanColor, if_neg hnil, hmapr, hmapg, hmapb, hsumr, hsum0, hlen]
  refine ⟨?_, hp, hs⟩
  rw [hp, hs]
  decide

/-- C6 (amended): for every cell whose accumulated colors are u8
triples and whose list is short enough that no u32 channel sum can
wrap (255 times the length is below 2^32), the effective color is
the per-channel arithmetic mean with truncating division (none when
the list is empty or absent); in particular accumulating 0xFF0000
and 0x0000FF yields (127, 0, 127). -/
theorem C6_effective_color (p : Pixel)
    (h : ∀ c ∈ p.colors.getD [], c.r < 256 ∧ c.g < 256 ∧ c.b < 256)
    (hlen : 255 * (p.colors.getD []).length < 4294967296) :
    p.color = specMeanColor p.colors ∧ redBluePixel.color = some ⟨127, 0, 127⟩ := by
  refine ⟨?_, by decide⟩
  rcases p with ⟨content, colors⟩
  rcases colors with _ | l
  · rfl
  · rcases eq_or_ne l [] with rfl | hl
    · rfl
    · have hlpos : 0 < l.length := List.length_pos.mpr hl
      have hlen2 : 255 * l.length < 4294967296 := hlen
      have hmem : ∀ c ∈ l, c.r < 256 ∧ c.g < 256 ∧ c.b < 256 := by
        intro c hc
        exact h c (by simpa using hc)
      have hsr := mapped_sum_le l Color.r (fun c hc => (hmem c hc).1)
      have hsg := mapped_sum_le l Color.g (fun c hc => (hmem c hc).2.1)
      have hsb := mapped_sum_le l Color.b (fun c hc => (hmem c hc).2.2)
      have hr : (l.map Color.r).sum / l.length ≤ 255 := by
        calc (l.map Color.r).sum / l.length
            ≤ 255 * l.length / l.length := Nat.div_le_div_right hsr
          _ = 255 := Nat.mul_div_cancel 255 hlpos
      have hg : (l.map Color.g).sum / l.length ≤ 255 := by
        calc (l.map Color.g).sum / l.length
            ≤ 255 * l.length / l.length := Nat.div_le_div_right hsg
          _ = 255 := Nat.mul_div_cancel 255 hlpos
      have hb : (l.map Color.b).sum / l.length ≤ 255 := by
        calc (l.map Color.b).sum / l.length
            ≤ 255 * l.length / l.length := Nat.div_le_div_right hsb
          _ = 255 := Nat.mul_div_cancel 255 hlpos
      have hne : l.isEmpty = false := by
        simpa [List.isEmpty_iff] using hl
      simp only [Pixel.color, specMeanColor, hne, Bool.false_eq_true, if_false, if_neg hl]
      rw [color_fold_sum_mod l 0 0 0 (by norm_num) (by norm_num) (by norm_num)]
      simp only [Nat.zero_add]
      rw [Nat.mod_eq_of_lt (show (l.map Color.r).sum < 4294967296 by omega),
        Nat.mod_eq_of_lt (show (l.map Color.g).sum < 4294967296 by omega),
        Nat.mod_eq_of_lt (show (l.map Color.b).sum < 4294967296 by omega),
        Nat.mod_eq_of_lt (show l.length < 4294967296 by omega)]
      rw [Nat.mod_eq_of_lt (by omega), Nat.mod_eq_of_lt (by omega),
        Nat.mod_eq_of_lt (by omega)]

/-- Witness for C6 at the concrete red/blue cell. -/
theorem C6_witness :
    (∀ c ∈ redBluePixel.colors.getD [], c.r < 256 ∧ c.g < 256 ∧ c.b < 256) ∧
    (255 * (redBluePixel.colors.getD []).length < 4294967296) ∧
    (redBluePixel.color = specMeanColor redBluePixel.colors ∧
      redBluePixel.color = some ⟨127, 0, 127⟩) :=
  ⟨by decide, by decide, C6_effective_color redBluePixel (by decide) (by decide)⟩

/-! ## Escape emission (claim C7) -/

theorem get_char_of_eq (p : Pixel) (prev : Option Color) (h : prev = p.color) :
    p.get_char prev = (String.singleton p.renderedChar, p.color) := by
  cases hp : p.color <;>
    simp [Pixel.get_char, colorize_char, hp, h, String.empty_append, String.append_empty]

theorem get_char_of_ne (p : Pixel) (prev : Option Color) (h : ¬ prev = p.color) :
    p.get_char prev =
      ((if prev.isSome then resetStr else "") ++ optEsc p.color ++
          String.singleton p.renderedChar,
        p.color) := by
  cases hp : p.color <;> cases prev <;>
    simp_all [Pixel.get_char, colorize_char, optEsc, resetStr, hp,
      String.empty_append, String.append_empty, String.append_assoc]

theorem digitChar_ne_esc (d : Nat) : digitChar d ≠ '\x1B' := by
  have hfin : ∀ k : Fin 10, Char.ofNat (48 + (k : Nat)) ≠ '\x1B' := by decide
  exact hfin ⟨d % 10, by omega⟩

theorem escNotInDecimalAux : ∀ (fuel n : Nat), '\x1B' ∉ natDecimalAux fuel n := by
  intro fuel
  induction fuel with
  | zero => intro n; simp [natDecimalAux]
  | succ fuel ih =>
    intro n
    rw [natDecimalAux]
    by_cases h : n < 10
    · rw [if_pos h]
      simp only [List.mem_singleton]
      exact fun hh => digitChar_ne_esc n hh.symm
    · rw [if_neg h]
      intro hmem
      rcases List.mem_append.mp hmem with h1 | h2
      · exact ih _ h1
      · simp only [List.mem_singleton] at h2
        exact digitChar_ne_esc _ h2.symm

theorem escNotInDecimal (n : Nat) : '\x1B' ∉ natDecimal n :=
  escNotInDecimalAux (n + 1) n

theorem countOpen_cons_ne (c : Char) (l : List Char) (hc : c ≠ '\x1B') :
    countOpen (c :: l) = countOpen l := by
  have hne : List.take 4 (c :: l) ≠ openPat := by
    intro hEq
    have ht : List.take 4 (c :: l) = c :: List.take 3 l := rfl
    rw [ht] at hEq
    injection hEq with h1 _
    exact hc h1
  simp only [countOpen, if_neg hne, Nat.zero_add]

theorem countOpen_append_no_esc (l1 l2 : List Char) (h : '\x1B' ∉ l1) :
    countOpen (l1 ++ l2) = countOpen l2 := by
  induction l1 with
  | nil => rfl
  | cons c rest ih =>
    have hc : c ≠ '\x1B' := fun hh => h (hh ▸ List.mem_cons_self c rest)
    rw [List.cons_append, countOpen_cons_ne c _ hc,
      ih (fun hm => h (List.mem_cons_of_mem c hm))]

theorem countOpen_small (l : List Char) (h : l.length < 4) : countOpen l = 0 := by
  induction l with
  | nil => rfl
  | cons c rest ih =>
    simp only [List.length_cons] at h
    have hlen : (c :: rest).length ≤ 4 := by
      simp only [List.length_cons]
      omega
    have ht : List.take 4 (c :: rest) = c :: rest := List.take_of_length_le hlen
    have hne : List.take 4 (c :: rest) ≠ openPat := by
      rw [ht]
      intro hEq
      have hlen4 := congrArg List.length hEq
      simp [openPat] at hlen4
      omega
    have hr : rest.length < 4 := by omega
    simp only [countOpen, if_neg hne, Nat.zero_add, ih hr]

theorem countOpen_open4 (l : List Char) :
    countOpen ('\x1B' :: '[' :: '3' :: '8' :: l) = 1 + countOpen l := by
  have hp : List.take 4 ('\x1B' :: '[' :: '3' :: '8' :: l) = openPat := rfl
  rw [countOpen, if_pos hp, countOpen_cons_ne _ _ (by decide),
    countOpen_cons_ne _ _ (by decide), countOpen_cons_ne _ _ (by decide)]

theorem countOpen_reset (l : List Char) :
    countOpen ('\x1B' :: '[' :: '0' :: 'm' :: l) = countOpen l := by
  have hne : List.take 4 ('\x1B' :: '[' :: '0' :: 'm' :: l) ≠ openPat := by
    intro hEq
    have ht : List.take 4 ('\x1B' :: '[' :: '0' :: 'm' :: l) = ['\x1B', '[', '0', 'm'] := rfl
    rw [ht] at hEq
    exact absurd hEq (by decide)
  rw [countOpen, if_neg hne, Nat.zero_add, countOpen_cons_ne _ _ (by decide),
    countOpen_cons_ne _ _ (by decide), countOpen_cons_ne _ _ (by decide)]

theorem countOpen_escOpen_append (col : Color) (l : List Char) :
    countOpen ((escOpen col).data ++ l) = 1 + countOpen l := by
  have h1 : (escOpen col).data ++ l =
      '\x1B' :: '[' :: '3' :: '8' :: (';' :: '2' :: ';' ::
        (natDecimal col.r ++ (';' :: (natDecimal col.g ++
          (';' :: (natDecimal col.b ++ ('m' :: l))))))) := by
    simp [escOpen, String.data_append]
  rw [h1, countOpen_open4, countOpen_cons_ne _ _ (by decide),
    countOpen_cons_ne _ _ (by decide), countOpen_cons_ne _ _ (by decide),
    countOpen_append_no_esc _ _ (escNotInDecimal _), countOpen_cons_ne _ _ (by decide),
    countOpen_append_no_esc _ _ (escNotInDecimal _), countOpen_cons_ne _ _ (by decide),
    countOpen_append_no_esc _ _ (escNotInDecimal _), countOpen_cons_ne _ _ (by decide)]

/-- C7: a cell emits an escape-open sequence before its character
iff its effective color is present and differs from the previous
color; with equal colors no escape at all is emitted; a present but
different previous color causes a reset before the character; and
two adjacent cells with the same effective color produce exactly one
escape-open sequence for the pair. -/
theorem C7_color_escape (p : Pixel) (prev : Option Color) :
    (prev = p.color → (p.get_char prev).1 = String.singleton p.renderedChar) ∧
    (prev ≠ p.color → (p.get_char prev).1 =
      (if prev.isSome then resetStr else "") ++ optEsc p.color ++
        String.singleton p.renderedChar) ∧
    (∀ (p2 : Pixel) (col : Color), p.color = some col → p2.color = some col →
      prev ≠ some col →
      countOpen ((p.get_char prev).1 ++ (p2.get_char (p.get_char prev).2).1).data = 1) := by
  refine ⟨?_, ?_, ?_⟩
  · intro h
    rw [get_char_of_eq p prev h]
  · intro h
    rw [get_char_of_ne p prev h]
  · intro p2 col h1 h2 h3
    have hne : ¬ prev = p.color := by
      rw [h1]; exact h3
    have heq2 : (some col : Option Color) = p2.color := h2.symm
    rw [get_char_of_ne p prev hne, h1, get_char_of_eq p2 (some col) heq2]
    simp only [optEsc, String.data_append]
    have hsing1 : (String.singleton p.renderedChar).data = [p.renderedChar] := rfl
    have hsing2 : (String.singleton p2.renderedChar).data = [p2.renderedChar] := rfl
    rw [hsing1, hsing2]
    have h2chars : countOpen ([p.renderedChar] ++ [p2.renderedChar]) = 0 :=
      countOpen_small ([p.renderedChar] ++ [p2.renderedChar]) (by simp)
    have htail : countOpen ((escOpen col).data ++
        ([p.renderedChar] ++ [p2.renderedChar])) = 1 := by
      rw [countOpen_escOpen_append, h2chars]
    cases prev with
    | none =>
      simp only [Option.isSome_none, Bool.false_eq_true, if_false]
      simp only [List.nil_append, List.append_assoc]
      exact htail
    | some pc =>
      simp only [Option.isSome_some, if_true]
      have hreset : (resetStr).data = ['\x1B', '[', '0', 'm'] := rfl
      rw [hreset]
      simp only [List.cons_append, List.nil_append, List.append_assoc]
      rw [countOpen_reset]
      exact htail

/-- Witness for C7: two adjacent red dot cells render with exactly
one escape-open sequence. -/
theorem C7_witness :
    countOpen ((redPixel.get_char none).1 ++
      (redPixel.get_char (redPixel.get_char none).2).1).data = 1 :=
  (C7_color_escape redPixel none).2.2 redPixel (Color.from_hex 0xFF0000)
    (by decide) (by decide) (by decide)

/-! ## Char-cell color invariant (claim C8) -/

theorem mem_modifyEntry (m : List ((Nat × Nat) × Pixel)) (k : Nat × Nat) (f : Pixel → Pixel) :
    ∀ e ∈ modifyEntry m k f, e ∈ m ∨ ∃ p0, e = (k, f p0) := by
  induction m with
  | nil =>
    intro e he
    simp only [modifyEntry, List.mem_singleton] at he
    exact Or.inr ⟨defaultPixel, he⟩
  | cons hd rest ih =>
    intro e he
    by_cases h : hd.1 = k
    · simp only [modifyEntry] at he
      rw [if_pos h] at he
      rcases List.mem_cons.mp he with he1 | he2
      · exact Or.inr ⟨hd.2, by rw [he1, h]⟩
      · exact Or.inl (List.mem_cons_of_mem hd he2)
    · simp only [modifyEntry] at he
      rw [if_neg h] at he
      rcases List.mem_cons.mp he with he1 | he2
      · exact Or.inl (by rw [he1]; exact List.mem_cons_self hd rest)
      · rcases ih e he2 with h1 | h2
        · exact Or.inl (List.mem_cons_of_mem hd h1)
        · exact Or.inr h2

theorem Pixel.content_add_color (p : Pixel) (col : Option Color) :
    (p.add_color col).content = p.content := by
  cases col <;> rfl

theorem Pixel.content_set_line_ne_char (p : Pixel) (b : Nat) (ch : Char) :
    (p.set_line b).content ≠ Content.Char ch := by
  rcases p with ⟨pc, pcol⟩
  cases pc <;> simp [Pixel.set_line]

theorem Pixel.set_char_set_color_len (p : Pixel) (ch : Char) (col : Option Color) :
    ((((p.set_char ch).set_color col)).colors.getD []).length ≤ 1 := by
  cases col <;> simp [Pixel.set_char, Pixel.set_color]

theorem Pixel.content_unset_char_ne_char (p : Pixel) (ch : Char) :
    (p.unset_char).content ≠ Content.Char ch := by
  rcases p with ⟨pc, pcol⟩
  cases pc <;> simp [Pixel.unset_char]

theorem Pixel.unset_line_char_eq (p : Pixel) (b : Nat) (ch : Char)
    (h : (p.unset_line b).content = Content.Char ch) : p.unset_line b = p := by
  rcases p with ⟨pc, pcol⟩
  cases pc <;> simp_all [Pixel.unset_line]

theorem Pixel.toggle_line_char_eq (p : Pixel) (b : Nat) (ch : Char)
    (h : (p.toggle_line b).content = Content.Char ch) : p.toggle_line b = p := by
  rcases p with ⟨pc, pcol⟩
  cases pc <;> simp_all [Pixel.toggle_line]

theorem charColorInv_set (c : Canvas) (x y : Nat) (h : charColorInv c) :
    charColorInv (c.set x y) := by
  intro e he ch hch
  simp only [Canvas.set] at he
  rcases mem_modifyEntry _ _ _ e he with h1 | ⟨p0, rfl⟩
  · exact h e h1 ch hch
  · exfalso
    simp only at hch
    rw [Pixel.content_add_color] at hch
    exact Pixel.content_set_line_ne_char p0 _ ch hch

theorem charColorInv_set_char (c : Canvas) (x y : Nat) (ch0 : Char) (h : charColorInv c) :
    charColorInv (c.set_char x y ch0) := by
  intro e he ch hch
  simp only [Canvas.set_char] at he
  rcases mem_modifyEntry _ _ _ e he with h1 | ⟨p0, rfl⟩
  · exact h e h1 ch hch
  · exact Pixel.set_char_set_color_len p0 ch0 c.color

theorem mem_andModify (m : List ((Nat × Nat) × Pixel)) (k : Nat × Nat) (f : Pixel → Pixel) :
    ∀ e ∈ andModify m k f, e ∈ m ∨ ∃ e0 ∈ m, e = (e0.1, f e0.2) := by
  intro e he
  rcases List.mem_map.mp he with ⟨e0, he0, rfl⟩
  by_cases h : e0.1 = k
  · exact Or.inr ⟨e0, he0, by rw [if_pos h]⟩
  · exact Or.inl (by rw [if_neg h]; exact he0)

theorem charColorInv_unset_char (c : Canvas) (x y : Nat) (h : charColorInv c) :
    charColorInv (c.unset_char x y) := by
  intro e he ch hch
  simp only [Canvas.unset_char] at he
  rcases mem_andModify _ _ _ e he with h1 | ⟨e0, he0, rfl⟩
  · exact h e h1 ch hch
  · exact absurd hch (Pixel.content_unset_char_ne_char e0.2 ch)

theorem charColorInv_unset (c : Canvas) (x y : Nat) (h : charColorInv c) :
    charColorInv (c.unset x y) := by
  intro e he ch hch
  simp only [Canvas.unset] at he
  rcases mem_andModify _ _ _ e he with h1 | ⟨e0, he0, rfl⟩
  · exact h e h1 ch hch
  · simp only at hch ⊢
    have heq := Pixel.unset_line_char_eq e0.2 _ ch hch
    rw [heq] at hch ⊢
    exact h e0 he0 ch hch

theorem charColorInv_toggle (c : Canvas) (x y : Nat) (h : charColorInv c) :
    charColorInv (c.toggle x y) := by
  intro e he ch hch
  simp only [Canvas.toggle] at he
  rcases mem_andModify _ _ _ e he with h1 | ⟨e0, he0, rfl⟩
  · exact h e h1 ch hch
  · simp only at hch ⊢
    have heq := Pixel.toggle_line_char_eq e0.2 _ ch hch
    rw [heq] at hch ⊢
    exact h e0 he0 ch hch

theorem charColorInv_foldl_set_char (pl : List (Nat × Nat × Char)) :
    ∀ c : Canvas, charColorInv c →
      charColorInv (pl.foldl (fun cv q => cv.set_char q.1 q.2.1 q.2.2) c) := by
  induction pl with
  | nil => intro c h; exact h
  | cons hd tl ih =>
    intro c h
    exact ih _ (charColorInv_set_char c hd.1 hd.2.1 hd.2.2 h)

theorem charColorInv_foldl_set (pl : List (Nat × Nat)) :
    ∀ c : Canvas, charColorInv c →
      charColorInv (pl.foldl (fun cv p => cv.set p.1 p.2) c) := by
  induction pl with
  | nil => intro c h; exact h
  | cons hd tl ih =>
    intro c h
    exact ih _ (charColorInv_set c hd.1 hd.2 h)

theorem charColorInv_applyOp (c : Canvas) (op : Op) (h : charColorInv c) :
    charColorInv (applyOp c op) := by
  cases op with
  | set x y => exact charColorInv_set c x y h
  | unset x y => exact charColorInv_unset c x y h
  | toggle x y => exact charColorInv_toggle c x y h
  | set_char x y ch => exact charColorInv_set_char c x y ch h
  | unset_char x y => exact charColorInv_unset_char c x y h
  | text x y w s => exact charColorInv_foldl_set_char _ c h
  | line x1 y1 x2 y2 => exact charColorInv_foldl_set _ c h
  | clear =>
    intro e he ch hch
    exact absurd he (List.not_mem_nil e)
  | set_color hex => exact h
  | reset_color => exact h

theorem charColorInv_applyOps (ops : List Op) :
    ∀ c : Canvas, charColorInv c → charColorInv (applyOps c ops) := by
  induction ops with
  | nil => intro c h; exact h
  | cons op rest ih =>
    intro c h
    exact ih _ (charColorInv_applyOp c op h)

/-- C8: after every sequence of public Canvas operations, every cell
whose content is the Char variant holds at most one accumulated
color. -/
theorem C8_char_color_invariant (w h : Nat) (ops : List Op) :
    charColorInv (applyOps (Canvas.new w h) ops) := by
  apply charColorInv_applyOps
  intro e he ch hch
  simp [Canvas.new] at he

/-! ## Never-set points read false (claim C3) -/

theorem Pixel.get_line_unset_line (p : Pixel) (b2 bit : Nat) (h : p.get_line bit = false) :
    (p.unset_line b2).get_line bit = false := by
  rcases p with ⟨pc, pcol⟩
  cases pc with
  | Line d =>
    have h0 : d &&& bit = 0 := by simpa [Pixel.get_line] using h
    have h1 := land_mono_zero h0 (255 ^^^ b2)
    simp [Pixel.unset_line, Pixel.get_line, h1]
  | Empty => simpa [Pixel.unset_line] using h
  | Char c0 => simpa [Pixel.unset_line] using h

theorem Pixel.get_line_set_line_other (p : Pixel) (b2 bit : Nat) (hd : b2 &&& bit = 0)
    (h : p.get_line bit = false) : (p.set_line b2).get_line bit = false := by
  rcases p with ⟨pc, pcol⟩
  cases pc with
  | Line d =>
    have h0 : d &&& bit = 0 := by simpa [Pixel.get_line] using h
    have h1 := land_lor_left_zero h0 hd
    simp [Pixel.set_line, Pixel.get_line, h1]
  | Empty =>
    have h1 : (0 ||| b2) &&& bit = 0 := by simpa using hd
    simp [Pixel.set_line, Pixel.get_line, h1, hd]
  | Char c0 =>
    have h1 : (0 ||| b2) &&& bit = 0 := by simpa using hd
    simp [Pixel.set_line, Pixel.get_line, h1, hd]

theorem Pixel.get_line_set_char_false (p : Pixel) (ch : Char) (col : Option Color) (bit : Nat) :
    (((p.set_char ch).set_color col)).get_line bit = false := by
  cases col <;> rfl

theorem Pixel.get_line_unset_char (p : Pixel) (bit : Nat) (h : p.get_line bit = false) :
    (p.unset_char).get_line bit = false := by
  rcases p with ⟨pc, pcol⟩
  cases pc <;> simp_all [Pixel.unset_char, Pixel.get_line]

theorem pixelMap_land_eq_zero (a b x y : Nat) (hne : a % 2 ≠ x % 2 ∨ b % 4 ≠ y % 4) :
    pixelMap (b % 4) (a % 2) &&& pixelMap (y % 4) (x % 2) = 0 := by
  have hf : ((⟨b % 4, by omega⟩ : Fin 4), (⟨a % 2, by omega⟩ : Fin 2)) ≠
      ((⟨y % 4, by omega⟩ : Fin 4), (⟨x % 2, by omega⟩ : Fin 2)) := by
    intro hc
    rw [Prod.mk.injEq] at hc
    rcases hc with ⟨h1, h2⟩
    rw [Fin.mk.injEq] at h1 h2
    tauto
  exact pixelMap_disjoint _ _ _ _ hf

theorem canvas_get_eq (c : Canvas) (x y : Nat) :
    c.get x y = ((findPixel c.pixels (cellKey x y)).getD defaultPixel).get_line
      (pixelMap (y % 4) (x % 2)) := by
  unfold Canvas.get
  cases findPixel c.pixels (cellKey x y) <;> rfl

theorem get_false_set (c : Canvas) (a b x y : Nat) (hnd : ¬ sameDot (a, b) (x, y))
    (h : c.get x y = false) : (c.set a b).get x y = false := by
  by_cases hk : cellKey a b = cellKey x y
  · have hne : a % 2 ≠ x % 2 ∨ b % 4 ≠ y % 4 := by
      by_contra hcon
      push_neg at hcon
      exact hnd ⟨hk, hcon.1, hcon.2⟩
    have hdisj := pixelMap_land_eq_zero a b x y hne
    rw [canvas_get_eq] at h ⊢
    simp only [Canvas.set]
    rw [hk, findPixel_modifyEntry_self, Option.getD_some, Pixel.get_line_add_color]
    exact Pixel.get_line_set_line_other _ _ _ hdisj h
  · rw [canvas_get_eq] at h ⊢
    simp only [Canvas.set]
    rw [findPixel_modifyEntry_ne _ _ _ _ (fun hh => hk hh.symm)]
    exact h

theorem get_false_set_char (c : Canvas) (a b : Nat) (ch : Char) (x y : Nat)
    (h : c.get x y = false) : (c.set_char a b ch).get x y = false := by
  by_cases hk : cellKey a b = cellKey x y
  · rw [canvas_get_eq]
    simp only [Canvas.set_char]
    rw [hk, findPixel_modifyEntry_self, Option.getD_some]
    exact Pixel.get_line_set_char_false _ _ _ _
  · rw [canvas_get_eq] at h ⊢
    simp only [Canvas.set_char]
    rw [findPixel_modifyEntry_ne _ _ _ _ (fun hh => hk hh.symm)]
    exact h

theorem get_false_unset (c : Canvas) (a b x y : Nat) (h : c.get x y = false) :
    (c.unset a b).get x y = false := by
  by_cases hk : cellKey a b = cellKey x y
  · rw [canvas_get_eq] at h ⊢
    simp only [Canvas.unset]
    rw [hk, findPixel_andModify_self]
    cases hf : findPixel c.pixels (cellKey x y) with
    | none => rfl
    | some p =>
      rw [hf] at h
      exact Pixel.get_line_unset_line p _ _ h
  · rw [canvas_get_eq] at h ⊢
    simp only [Canvas.unset]
    rw [findPixel_andModify_ne _ _ _ _ (fun hh => hk hh.symm)]
    exact h

theorem get_false_unset_char (c : Canvas) (a b x y : Nat) (h : c.get x y = false) :
    (c.unset_char a b).get x y = false := by
  by_cases hk : cellKey a b = cellKey x y
  · rw [canvas_get_eq] at h ⊢
    simp only [Canvas.unset_char]
    rw [hk, findPixel_andModify_self]
    cases hf : findPixel c.pixels (cellKey x y) with
    | none => rfl
    | some p =>
      rw [hf] at h
      exact Pixel.get_line_unset_char p _ h
  · rw [canvas_get_eq] at h ⊢
    simp only [Canvas.unset_char]
    rw [findPixel_andModify_ne _ _ _ _ (fun hh => hk hh.symm)]
    exact h

theorem get_false_foldl_set_char (x y : Nat) (pl : List (Nat × Nat × Char)) :
    ∀ c : Canvas, c.get x y = false →
      (pl.foldl (fun cv q => cv.set_char q.1 q.2.1 q.2.2) c).get x y = false := by
  induction pl with
  | nil => intro c h; exact h
  | cons hd tl ih =>
    intro c h
    exact ih _ (get_false_set_char c hd.1 hd.2.1 hd.2.2 x y h)

theorem get_false_foldl_set (x y : Nat) (pl : List (Nat × Nat)) :
    ∀ c : Canvas, (∀ p ∈ pl, ¬ sameDot p (x, y)) → c.get x y = false →
      (pl.foldl (fun cv p => cv.set p.1 p.2) c).get x y = false := by
  induction pl with
  | nil => intro c _ h; exact h
  | cons hd tl ih =>
    intro c hpl h
    exact ih _ (fun p hp => hpl p (List.mem_cons_of_mem hd hp))
      (get_false_set c hd.1 hd.2 x y (hpl hd (List.mem_cons_self hd tl)) h)

theorem get_false_applyOp (c : Canvas) (op : Op) (x y : Nat)
    (hTog : isToggle op = false)
    (hSet : ∀ p ∈ opSetCalls op, ¬ sameDot p (x, y))
    (h : c.get x y = false) : (applyOp c op).get x y = false := by
  cases op with
  | set a b => exact get_false_set c a b x y (hSet (a, b) (by simp [opSetCalls])) h
  | unset a b => exact get_false_unset c a b x y h
  | toggle a b => simp [isToggle] at hTog
  | set_char a b ch => exact get_false_set_char c a b ch x y h
  | unset_char a b => exact get_false_unset_char c a b x y h
  | text a b w s => exact get_false_foldl_set_char x y _ c h
  | line x1 y1 x2 y2 =>
    exact get_false_foldl_set x y _ c (fun p hp => hSet p (by simpa [opSetCalls] using hp)) h
  | clear => rfl
  | set_color hex => exact h
  | reset_color => exact h

theorem get_false_applyOps (x y : Nat) (ops : List Op) :
    ∀ c : Canvas, (∀ op ∈ ops, isToggle op = false) →
      (∀ op ∈ ops, ∀ p ∈ opSetCalls op, ¬ sameDot p (x, y)) →
      c.get x y = false → (applyOps c ops).get x y = false := by
  induction ops with
  | nil => intro c _ _ h; exact h
  | cons op rest ih =>
    intro c hTog hSet h
    exact ih _ (fun o ho => hTog o (List.mem_cons_of_mem op ho))
      (fun o ho => hSet o (List.mem_cons_of_mem op ho))
      (get_false_applyOp c op x y (hTog op (List.mem_cons_self op rest))
        (hSet op (List.mem_cons_self op rest)) h)

/-- C3 counterexample: setting (0,0) and then toggling (1,0) makes
get(1,0) return true although (1,0) was never passed to set. -/
theorem C3_counterexample :
    (applyOps (Canvas.new 0 0) [Op.set 0 0, Op.toggle 1 0]).get 1 0 = true ∧
    (∀ op ∈ [Op.set 0 0, Op.toggle 1 0], (1, 0) ∉ opSetCalls op) :=
  ⟨by decide, by decide⟩

/-- C3 (amended): for every canvas reached from a fresh canvas by a
sequence of public operations that never uses toggle, and every fine
point (x, y) such that no set call of the sequence (direct or via
line) targets a point aliasing the same cell and dot bit, get(x, y)
returns false. -/
theorem C3_never_set_get_false (w h x y : Nat) (ops : List Op)
    (hTog : ∀ op ∈ ops, isToggle op = false)
    (hSet : ∀ op ∈ ops, ∀ p ∈ opSetCalls op, ¬ sameDot p (x, y)) :
    (applyOps (Canvas.new w h) ops).get x y = false := by
  apply get_false_applyOps x y ops _ hTog hSet
  rfl

/-- Witness for C3: after set(0,0) alone, the untouched dot (1,1)
reads false. -/
theorem C3_witness :
    (∀ op ∈ [Op.set 0 0], isToggle op = false) ∧
    (∀ op ∈ [Op.set 0 0], ∀ p ∈ opSetCalls op, ¬ sameDot p (1, 1)) ∧
    (applyOps (Canvas.new 0 0) [Op.set 0 0]).get 1 1 = false :=
  ⟨by decide, by decide, C3_never_set_get_false 0 0 1 1 [Op.set 0 0] (by decide) (by decide)⟩

/-! ## Line rasterization (claim C4) -/

theorem i32AsU32_wrapI32 (v : Int) : i32AsU32 (wrapI32 v) = i32AsU32 v := by
  unfold i32AsU32 wrapI32
  omega

theorem wrapI32_eq_self (v : Int) (h0 : -2147483648 ≤ v) (h1 : v < 2147483648) :
    wrapI32 v = v := by
  unfold wrapI32
  omega

/-- One coordinate of a line step: with both endpoints in u32 range
and the coordinate difference below 2^16 (so the u32 multiplication
cannot wrap), the wrapped arithmetic of the source equals the exact
formula of the specification. -/
theorem lineCoord_eq (a b i r diff : Nat)
    (ha : a < 4294967296) (hb : b < 4294967296)
    (hdiff : diff = max a b - min a b)
    (hdr : diff ≤ r) (hr : r < 65536) (hi : i ≤ r) :
    ((i32AsU32 (if diff ≠ 0 then
        wrapI32 (u32AsI32 a + wrapI32 (u32AsI32 (i * diff % 4294967296 / r) *
          (if a ≤ b then (1 : Int) else -1)))
      else u32AsI32 a) : Nat) : Int) =
      (a : Int) + ((if diff = 0 then (0 : Nat) else i * diff / r : Nat) : Int) *
        Int.sign ((b : Int) - (a : Int)) := by
  by_cases hd0 : diff = 0
  · have hab : a = b := by omega
    subst hab
    rw [if_neg (not_not_intro hd0), if_pos hd0]
    have hs : Int.sign ((a : Int) - (a : Int)) = 0 := by simp
    rw [hs]
    simp only [Int.mul_zero, Int.add_zero]
    unfold u32AsI32 i32AsU32
    split_ifs <;> omega
  · have hrpos : 0 < r := lt_of_lt_of_le (Nat.pos_of_ne_zero hd0) hdr
    have hmul : i * diff < 4294967296 := by
      have h1 : i * diff ≤ r * diff := Nat.mul_le_mul_right diff hi
      have h2 : r * diff ≤ 65535 * 65535 := Nat.mul_le_mul (by omega) (by omega)
      omega
    have hq : i * diff % 4294967296 = i * diff := Nat.mod_eq_of_lt hmul
    have hqle : i * diff / r ≤ diff := by
      have h1 : i * diff ≤ r * diff := Nat.mul_le_mul_right diff hi
      have h2 : i * diff / r ≤ r * diff / r := Nat.div_le_div_right h1
      rwa [Nat.mul_div_cancel_left diff hrpos] at h2
    have hqlt : i * diff / r < 2147483648 := Nat.lt_of_le_of_lt hqle (by omega)
    have huq : u32AsI32 (i * diff / r) = ((i * diff / r : Nat) : Int) := by
      unfold u32AsI32
      rw [if_pos hqlt]
    rw [if_pos hd0, if_neg hd0, hq, huq]
    have hc1 : (0 : Int) ≤ ((i * diff / r : Nat) : Int) := Int.natCast_nonneg _
    have hc2 : ((i * diff / r : Nat) : Int) ≤ (diff : Int) := by exact_mod_cast hqle
    generalize hgen : ((i * diff / r : Nat) : Int) = qz
    rw [hgen] at hc1 hc2
    by_cases hab : a ≤ b
    · have hblt : a < b := by omega
      have hsign : Int.sign ((b : Int) - a) = 1 := by
        rw [Int.sign_eq_one_iff_pos]
        omega
      rw [if_pos hab, hsign]
      rw [Int.mul_one]
      rw [wrapI32_eq_self qz (by omega) (by omega)]
      rw [i32AsU32_wrapI32]
      unfold u32AsI32 i32AsU32
      split_ifs <;> omega
    · have hblt : b < a := by omega
      have hsign : Int.sign ((b : Int) - a) = -1 := by
        rw [Int.sign_eq_neg_one_iff_neg]
        omega
      rw [if_neg hab, hsign]
      rw [Int.mul_neg_one]
      rw [wrapI32_eq_self (-qz) (by omega) (by omega)]
      rw [i32AsU32_wrapI32]
      unfold u32AsI32 i32AsU32
      split_ifs <;> omega

/-- C4 counterexample: at endpoints (0,0) to (65536,0) the u32
multiplication i * xdiff wraps modulo 2^32 at the final step i =
65536, so the code passes (0,0) to set where the claimed formula
gives (65536,0); the produced point lists differ. -/
theorem C4_counterexample :
    ¬ ((linePoints 0 0 65536 0).map (fun p => ((p.1 : Int), (p.2 : Int))) =
        specLinePoints 0 0 65536 0) := by
  intro hEq
  have h65 := congrArg (fun l => l[65536]?) hEq
  simp only at h65
  have hL : (linePoints 0 0 65536 0).map (fun p => ((p.1 : Int), (p.2 : Int))) =
      (List.range 65537).map
        (fun j => (fun p => ((p.1 : Int), (p.2 : Int))) (lineStep 0 0 65536 0 j)) := by
    rw [show linePoints 0 0 65536 0 = (List.range 65537).map (lineStep 0 0 65536 0) from rfl,
      List.map_map]
    rfl
  have hR : specLinePoints 0 0 65536 0 = (List.range 65537).map (specLineStep 0 0 65536 0) :=
    rfl
  rw [hL, hR] at h65
  rw [List.getElem?_map, List.getElem?_map,
    List.getElem?_range (by norm_num : (65536 : Nat) < 65537)] at h65
  exact absurd h65 (by decide)

/-- C4 (amended): for all u32 endpoints whose coordinate differences
are both below 65536 (so that no intermediate u32 product
overflows), line calls set exactly at the points x = x1 +
(i bdot dx / steps) bdot sign(x2 - x1), y = y1 + (i bdot dy / steps)
bdot sign(y2 - y1) for i from 0 to steps = max(dx, dy) inclusive,
with truncating division and quotient 0 for a zero delta; the
degenerate case steps = 0 still yields the single point. -/
theorem C4_line_formula (x1 y1 x2 y2 : Nat)
    (hx1 : x1 < 4294967296) (hy1 : y1 < 4294967296)
    (hx2 : x2 < 4294967296) (hy2 : y2 < 4294967296)
    (hdx : max x1 x2 - min x1 x2 < 65536) (hdy : max y1 y2 - min y1 y2 < 65536) :
    (linePoints x1 y1 x2 y2).map (fun p => ((p.1 : Int), (p.2 : Int))) =
      specLinePoints x1 y1 x2 y2 := by
  have hdxa : ((x2 : Int) - x1).natAbs = max x1 x2 - min x1 x2 := by omega
  have hdya : ((y2 : Int) - y1).natAbs = max y1 y2 - min y1 y2 := by omega
  simp only [linePoints, specLinePoints, hdxa, hdya, List.map_map]
  apply List.map_congr_left
  intro i hi
  rw [List.mem_range] at hi
  have hx := lineCoord_eq x1 x2 i
    (max (max x1 x2 - min x1 x2) (max y1 y2 - min y1 y2)) (max x1 x2 - min x1 x2)
    hx1 hx2 rfl (le_max_left _ _) (by omega) (by omega)
  have hy := lineCoord_eq y1 y2 i
    (max (max x1 x2 - min x1 x2) (max y1 y2 - min y1 y2)) (max y1 y2 - min y1 y2)
    hy1 hy2 rfl (le_max_right _ _) (by omega) (by omega)
  simp only [Function.comp_apply, lineStep, specLineStep, hdxa, hdya]
  exact Prod.ext hx hy

/-- Witness for C4 at the small segment (0,0) to (3,5). -/
theorem C4_witness :
    (linePoints 0 0 3 5).map (fun p => ((p.1 : Int), (p.2 : Int))) =
      specLinePoints 0 0 3 5 :=
  C4_line_formula 0 0 3 5 (by norm_num) (by norm_num) (by norm_num) (by norm_num)
    (by norm_num) (by norm_num)

end Drawille
